import Mathlib

/-!
Verification development for the change-streaming core of the repository
(`crates/corro-types/src/change.rs`): the `Change` record type and its byte-size
estimate, the `ChunkedChanges` pull-based chunker, and the `insert_local_changes`
registrar.  Definitions are a shallow embedding of the Rust source: machine
integers become `Nat`/`Int` (the sequence counters are `u64` newtypes used far
below overflow on every path considered here), the fallible row iterator becomes
a list of `Except` values, and the chunker's `next` becomes an explicit
state-passing step function.
-/

set_option autoImplicit false

namespace Corrosion

/-- Modelled from the spec: the tagged scalar value type (`SqliteValue` from the
`corro-api-types` crate, which is not under `src/`).  The spec describes it as
"a tagged scalar: null/integer/real/text/blob" whose `estimated_byte_size` is the
variable-length field length of the value (fixed 8-byte width for the numeric
variants, byte length for text/blob).  The claims below treat this size purely
symbolically, so only the shape matters.  A float's payload is represented by its
bit pattern, which is irrelevant to every property proved here. -/
inductive SqliteValue where
  | null
  | integer (i : Int)
  | real (bits : Nat)
  | text (t : String)
  | blob (b : List Nat)
deriving DecidableEq

/-- Modelled from the spec: byte-size estimate of one scalar value (variable
length for text/blob, fixed 8 bytes for the numeric variants, 0 for null). -/
def SqliteValue.estimated_byte_size : SqliteValue → Nat
  | .null => 0
  | .integer _ => 8
  | .real _ => 8
  | .text t => t.utf8ByteSize
  | .blob b => b.length

/-- One column-level change record (struct `Change` in `change.rs`).
`table` and `cid` are strings whose Rust `len()` is their UTF-8 byte count;
`pk` is a byte vector; `site_id` is the 16-byte writer identity (the estimate
below uses the fixed width 16, as the source does). -/
structure Change where
  table : String
  pk : List Nat
  cid : String
  val : SqliteValue
  col_version : Int
  db_version : Nat
  seq : Nat
  site_id : List Nat
  cl : Int
deriving DecidableEq

/-- Byte-size estimate of a change record (`Change::estimated_byte_size`):
the variable-length fields plus fixed widths for `col_version` (8),
`db_version` (8), `seq` (8), `site_id` (16), `cl` (8) and a wire-only
`site_version` slot (8). -/
def Change.estimated_byte_size (c : Change) : Nat :=
  c.table.utf8ByteSize + c.pk.length + c.cid.utf8ByteSize + c.val.estimated_byte_size +
    8 +   -- col_version
    8 +   -- db_version
    8 +   -- seq
    16 +  -- site_id
    8 +   -- cl
    8     -- site_version

/-- Inclusive range of sequence numbers (`CrsqlSeqRange` from `corro-base-types`,
modelled from the spec as an inclusive pair over sequence numbers).  `endSeq`
stands for the source's `end`, which is a reserved word in Lean. -/
structure CrsqlSeqRange where
  startSeq : Nat
  endSeq : Nat
deriving DecidableEq

/-- Constructor mirroring `CrsqlSeqRange::new(start, end)`. -/
def CrsqlSeqRange.new (s e : Nat) : CrsqlSeqRange := ⟨s, e⟩

/-- Opaque stand-in for `rusqlite::Error` values surfacing from the source
iterator; only identity matters. -/
structure RusqliteError where
  code : Nat
deriving DecidableEq

deriving instance DecidableEq for Except

/-- State of the chunker (struct `ChunkedChanges` in `change.rs`).  The peekable
fallible row iterator is embedded as the list of its remaining items. -/
structure ChunkedChanges where
  iter : List (Except RusqliteError Change)
  changes : List Change
  last_pushed_seq : Nat
  last_start_seq : Nat
  last_seq : Nat
  max_buf_size : Nat
  buffered_size : Nat
  done : Bool
deriving DecidableEq

/-- Constructor mirroring `ChunkedChanges::new`. -/
def ChunkedChanges.new (iter : List (Except RusqliteError Change))
    (start_seq last_seq : Nat) (max_buf_size : Nat) : ChunkedChanges :=
  { iter := iter
    changes := []
    last_pushed_seq := 0
    last_start_seq := start_seq
    last_seq := last_seq
    max_buf_size := max_buf_size
    buffered_size := 0
    done := false }

/-- One item yielded by a pull of the chunker: either a chunk (record list plus
the sequence range it accounts for) or a propagated source error. -/
abbrev ChunkItem := Except RusqliteError (List Change × CrsqlSeqRange)

/-- The `loop` body of `ChunkedChanges::next` (lines 125-177 of `change.rs`),
written as a structural recursion over the remaining iterator items.  The
arguments after the iterator are the mutable locals threaded by the loop:
accumulated `changes`, `buffered_size`, `last_pushed_seq`, `last_start_seq`.
Each exit rebuilds the full `ChunkedChanges` state alongside the emitted item:
source exhaustion and the two `break` paths fall through to the final-chunk
emission (which keeps the accumulated changes, as `clone()` does, and sets
`done`); the mid-stream split drains the accumulator and advances
`last_start_seq`; a source error is returned immediately. -/
def chunkLoop (max_buf_size last_seq : Nat) :
    List (Except RusqliteError Change) → List Change → Nat → Nat → Nat →
      Option ChunkItem × ChunkedChanges
  | [], changes, buffered_size, last_pushed_seq, last_start_seq =>
      (some (Except.ok (changes, CrsqlSeqRange.new last_start_seq last_seq)),
        ⟨[], changes, last_pushed_seq, last_start_seq, last_seq, max_buf_size,
          buffered_size, true⟩)
  | Except.error e :: rest, changes, buffered_size, last_pushed_seq, last_start_seq =>
      (some (Except.error e),
        ⟨rest, changes, last_pushed_seq, last_start_seq, last_seq, max_buf_size,
          buffered_size, false⟩)
  | Except.ok change :: rest, changes, buffered_size, last_pushed_seq, last_start_seq =>
      -- the loop sets last_pushed_seq := change.seq, adds the estimated size,
      -- and pushes the change before testing the two stopping conditions
      if change.seq = last_seq then
        -- this was the last seq: break to final-chunk emission
        (some (Except.ok (changes ++ [change], CrsqlSeqRange.new last_start_seq last_seq)),
          ⟨rest, changes ++ [change], change.seq, last_start_seq, last_seq, max_buf_size,
            buffered_size + change.estimated_byte_size, true⟩)
      else if max_buf_size ≤ buffered_size + change.estimated_byte_size then
        if rest.isEmpty then
          -- no more rows: break to final-chunk emission
          (some (Except.ok (changes ++ [change], CrsqlSeqRange.new last_start_seq last_seq)),
            ⟨rest, changes ++ [change], change.seq, last_start_seq, last_seq, max_buf_size,
              buffered_size + change.estimated_byte_size, true⟩)
        else
          -- chunking it up: emit and prepare for the next round
          (some (Except.ok (changes ++ [change], CrsqlSeqRange.new last_start_seq change.seq)),
            ⟨rest, [], change.seq, change.seq + 1, last_seq, max_buf_size,
              buffered_size + change.estimated_byte_size, false⟩)
      else
        chunkLoop max_buf_size last_seq rest (changes ++ [change])
          (buffered_size + change.estimated_byte_size) change.seq last_start_seq

/-- One pull of the chunker (`<ChunkedChanges as Iterator>::next`): when `done`
is set a prior pull reached the terminal condition and `None` is returned;
otherwise the buffered size is reset to zero and the loop runs. -/
def ChunkedChanges.next (σ : ChunkedChanges) : Option ChunkItem × ChunkedChanges :=
  if σ.done then (none, σ)
  else chunkLoop σ.max_buf_size σ.last_seq σ.iter σ.changes 0 σ.last_pushed_seq σ.last_start_seq

/-- Repeated pulls: the list of items produced by calling `next` until it
returns `None`, cut off by a fuel bound.  Any fuel exceeding the length of the
remaining iterator captures every pull (proved below), so theorems quantify over
all sufficient fuels. -/
def ChunkedChanges.pulls : Nat → ChunkedChanges → List ChunkItem
  | 0, _ => []
  | fuel + 1, σ =>
    match σ.next with
    | (none, _) => []
    | (some item, σ2) => item :: ChunkedChanges.pulls fuel σ2

/-- Result of the n-th subsequent call to `next` (0-indexed), used to state the
past-end idempotence claim. -/
def ChunkedChanges.nextN : ChunkedChanges → Nat → Option ChunkItem
  | σ, 0 => σ.next.1
  | σ, n + 1 => ChunkedChanges.nextN σ.next.2 n

/-- Default byte budget for chunking (`MAX_CHANGES_BYTE_SIZE`). -/
def MAX_CHANGES_BYTE_SIZE : Nat := 8 * 1024

/-- Ranges carried by the `Ok` items of an emission list. -/
def itemRanges : List ChunkItem → List CrsqlSeqRange
  | [] => []
  | Except.ok (_, r) :: rest => r :: itemRanges rest
  | Except.error _ :: rest => itemRanges rest

/-- Concatenation of the record lists carried by the `Ok` items of an emission
list, in emission order. -/
def itemRecords : List ChunkItem → List Change
  | [] => []
  | Except.ok (cs, _) :: rest => cs ++ itemRecords rest
  | Except.error _ :: rest => itemRecords rest

/-- Every emitted item is a chunk (no propagated error). -/
def allOk : List ChunkItem → Bool
  | [] => true
  | Except.ok _ :: rest => allOk rest
  | Except.error _ :: _ => false

/-- The range list exactly tiles the inclusive span `[s, e]`: the list is
nonempty, the first range starts at `s`, each subsequent range starts exactly
one past the previous range's end (no gaps, no overlaps, emission order
non-decreasing), every range satisfies `start ≤ end + 1` (so no range reaches
back over its predecessors), and the last range ends at `e`. -/
def tilesFrom (s e : Nat) : List CrsqlSeqRange → Bool
  | [] => false
  | [r] => r.startSeq == s && Nat.ble r.startSeq (r.endSeq + 1) && (r.endSeq == e)
  | r :: r2 :: rest =>
      r.startSeq == s && Nat.ble r.startSeq (r.endSeq + 1) && tilesFrom (r.endSeq + 1) e (r2 :: rest)

/-- A concrete record with the given sequence number and default contents,
mirroring the `Change { seq, ..Default::default() }` values of the source's
tests. -/
def sampleChange (n : Nat) : Change :=
  { table := ""
    pk := []
    cid := ""
    val := SqliteValue.null
    col_version := 0
    db_version := 0
    seq := n
    site_id := List.replicate 16 0
    cl := 0 }

/-- Logical clock timestamp (the `Timestamp` wrapper from `broadcast`, not under
`src/`; only identity matters here). -/
structure Timestamp where
  t : Nat
deriving DecidableEq

/-- Stable 16-byte writer identity (`ActorId`); only identity matters here. -/
structure ActorId where
  id : Nat
deriving DecidableEq

/-- Typed fault of the registrar (`ChangeError::Rusqlite`): the underlying
store error tagged with the writer identity and, where known, the version. -/
inductive ChangeError where
  | rusqlite (source : RusqliteError) (actor_id : Option ActorId) (version : Option Nat)
deriving DecidableEq

/-- Modelled from the spec: the ledger snapshot (`VersionsSnapshot` from
`agent.rs`, which is not under `src/`), recorded as the list of version-range
sets registered into it, in registration order. -/
structure VersionsSnapshot where
  registered : List (List (Nat × Nat))
deriving DecidableEq

/-- Modelled from the spec: `VersionsSnapshot::insert_db` registers a set of
contiguous `db_version` ranges (each an inclusive pair) into the snapshot.  The
store write it performs can fail; that outcome is supplied by the environment
below, and this function records the successful registration. -/
def VersionsSnapshot.insert_db (snap : VersionsSnapshot) (ranges : List (Nat × Nat)) :
    VersionsSnapshot :=
  { registered := snap.registered ++ [ranges] }

/-- Modelled from the spec: the per-actor version ledger (`BookedVersions` from
`agent.rs`, not under `src/`), exposing only the `snapshot` operation this core
consumes.  Exclusive write access is the caller's obligation and is implicit in
value-passing here. -/
structure BookedVersions where
  snap : VersionsSnapshot
deriving DecidableEq

/-- Modelled from the spec: `BookedVersions::snapshot` hands out the mutable
snapshot view. -/
def BookedVersions.snapshot (b : BookedVersions) : VersionsSnapshot := b.snap

/-- Ledger-affecting operations performed during one registrar call, used to
state that the ledger is mutated exactly once (or not at all). -/
inductive LedgerOp where
  | snapshot
  | insert_db (ranges : List (Nat × Nat))
deriving DecidableEq

/-- Environment of one `insert_local_changes` call: the agent's identity and
clock, the results of the store's read-only queries, the exclusively held
ledger writer, and the outcome of the snapshot's `insert_db` store write.
`peek_next_db_version` is the result of `SELECT crsql_peek_next_db_version()`;
`version_info` is the result of `SELECT MAX(seq), MAX(ts) FROM crsql_changes
WHERE site_id = ? AND db_version = ?` for the given version. -/
structure RegistrarEnv where
  actor_id : ActorId
  clock_timestamp : Timestamp
  peek_next_db_version : Except RusqliteError Nat
  version_info : Nat → Except RusqliteError (Option Nat × Option Timestamp)
  insert_db_result : Except RusqliteError Unit
  book_writer : BookedVersions

/-- Output record of a successful registration (`InsertChangesInfo`). -/
structure InsertChangesInfo where
  db_version : Nat
  last_seq : Nat
  ts : Timestamp
  snap : VersionsSnapshot
deriving DecidableEq

/-- The registrar (`insert_local_changes` in `change.rs`), returning its result
together with the trace of ledger operations performed.  Faithful to the source:
peek the next `db_version`; query `(MAX(seq), MAX(ts))` for it; on `(None, None)`
or `(None, Some ts)` yield nothing (the latter logs a warning) without touching
the ledger; on `(Some last_seq, ts)` substitute a fresh clock timestamp when
`ts` is absent (with a warning), take a snapshot from the ledger writer,
register the single-version range `[db_version, db_version]` into it, and yield
the `InsertChangesInfo`.  Store faults are tagged with the actor id and, for the
`insert_db` write, with the version being processed. -/
def insert_local_changes (env : RegistrarEnv) :
    Except ChangeError (Option InsertChangesInfo) × List LedgerOp :=
  match env.peek_next_db_version with
  | Except.error source =>
      (Except.error (ChangeError.rusqlite source (some env.actor_id) none), [])
  | Except.ok db_version =>
    match env.version_info db_version with
    | Except.error source =>
        (Except.error (ChangeError.rusqlite source (some env.actor_id) none), [])
    | Except.ok (none, none) => (Except.ok none, [])
    | Except.ok (none, some _ts) =>
        -- warn: found db_version without seq; nothing is registered
        (Except.ok none, [])
    | Except.ok (some last_seq, ts) =>
        let ts := ts.getD env.clock_timestamp
        let snap := env.book_writer.snapshot
        match env.insert_db_result with
        | Except.error source =>
            (Except.error (ChangeError.rusqlite source (some env.actor_id) (some db_version)),
              [LedgerOp.snapshot, LedgerOp.insert_db [(db_version, db_version)]])
        | Except.ok _ =>
            (Except.ok (some
              { db_version := db_version
                last_seq := last_seq
                ts := ts
                snap := snap.insert_db [(db_version, db_version)] }),
              [LedgerOp.snapshot, LedgerOp.insert_db [(db_version, db_version)]])

/-! ### Structural lemmas about the chunker -/

/-- Characterisation of one fault-free run of the loop body: the loop splits the
remaining input as `pre ++ post`, emits the chunk `ch ++ pre` with a range
starting at `last_start_seq`, leaves exactly `post` on the iterator, and either
terminates the whole stream (range ending at `last_seq`, with `post` empty
unless the terminal sequence was hit by the last consumed record) or emits a
mid-stream chunk (nonempty `pre`, range ending at the last consumed record's
`seq`, which is not `last_seq`, iterator not yet empty, accumulator drained,
next chunk starting one past the range's end). -/
theorem chunkLoop_char (B L : Nat) (input : List Change) :
    ∀ (ch : List Change) (buf lp ls : Nat),
    ∃ (pre post : List Change) (r : CrsqlSeqRange) (σ2 : ChunkedChanges),
      input = pre ++ post ∧
      chunkLoop B L (input.map Except.ok) ch buf lp ls
        = (some (Except.ok (ch ++ pre, r)), σ2) ∧
      r.startSeq = ls ∧
      σ2.iter = post.map Except.ok ∧ σ2.last_seq = L ∧ σ2.max_buf_size = B ∧
      ((σ2.done = true ∧ r.endSeq = L ∧
         (post = [] ∨ ∃ c, pre.getLast? = some c ∧ c.seq = L)) ∨
       (σ2.done = false ∧ σ2.changes = [] ∧ post ≠ [] ∧
         (∃ c, pre.getLast? = some c ∧ c.seq = r.endSeq) ∧
         σ2.last_start_seq = r.endSeq + 1)) := by
  induction input with
  | nil =>
    intro ch buf lp ls
    exact ⟨[], [], CrsqlSeqRange.new ls L, ⟨[], ch, lp, ls, L, B, buf, true⟩,
      by simp, by simp [chunkLoop], rfl, by simp, rfl, rfl, Or.inl ⟨rfl, rfl, Or.inl rfl⟩⟩
  | cons c rest IH =>
    intro ch buf lp ls
    by_cases hseq : c.seq = L
    · -- the terminal sequence was consumed: break to final-chunk emission
      exact ⟨[c], rest, CrsqlSeqRange.new ls L,
        ⟨rest.map Except.ok, ch ++ [c], c.seq, ls, L, B, buf + c.estimated_byte_size, true⟩,
        by simp, by simp [chunkLoop, hseq], rfl, rfl, rfl, rfl,
        Or.inl ⟨rfl, rfl, Or.inr ⟨c, by simp, hseq⟩⟩⟩
    · by_cases hbud : B ≤ buf + c.estimated_byte_size
      · cases rest with
        | nil =>
          -- the budget is reached but the source is exhausted: final emission
          exact ⟨[c], [], CrsqlSeqRange.new ls L,
            ⟨[], ch ++ [c], c.seq, ls, L, B, buf + c.estimated_byte_size, true⟩,
            by simp, by simp [chunkLoop, hseq, hbud], rfl, by simp, rfl, rfl,
            Or.inl ⟨rfl, rfl, Or.inl rfl⟩⟩
        | cons d rest2 =>
          -- the chunk is full and more rows follow: emit the mid-stream chunk
          exact ⟨[c], d :: rest2, CrsqlSeqRange.new ls c.seq,
            ⟨(d :: rest2).map Except.ok, [], c.seq, c.seq + 1, L, B,
              buf + c.estimated_byte_size, false⟩,
            by simp, by simp [chunkLoop, hseq, hbud], rfl, rfl, rfl, rfl,
            Or.inr ⟨rfl, rfl, by simp, ⟨c, by simp, rfl⟩, rfl⟩⟩
      · obtain ⟨pre2, post2, r2, σ2, hsplit, heq, hstart, hiter, hL, hB, hdisj⟩ :=
          IH (ch ++ [c]) (buf + c.estimated_byte_size) c.seq ls
        refine ⟨c :: pre2, post2, r2, σ2, by simp [hsplit], ?_, hstart, hiter, hL, hB, ?_⟩
        · have hstep : chunkLoop B L ((c :: rest).map Except.ok) ch buf lp ls
              = chunkLoop B L (rest.map Except.ok) (ch ++ [c])
                  (buf + c.estimated_byte_size) c.seq ls := by
            simp [chunkLoop, hseq, hbud]
          rw [hstep, heq]
          simp
        · rcases hdisj with ⟨hd, hr, hpost⟩ | ⟨hd, hch, hpost, ⟨c2, hlast, hcs⟩, hls2⟩
          · refine Or.inl ⟨hd, hr, ?_⟩
            rcases hpost with hpost | ⟨c2, hlast, hcs⟩
            · exact Or.inl hpost
            · refine Or.inr ⟨c2, ?_, hcs⟩
              cases pre2 with
              | nil => simp at hlast
              | cons x xs => simpa using hlast
          · refine Or.inr ⟨hd, hch, hpost, ⟨c2, ?_, hcs⟩, hls2⟩
            cases pre2 with
            | nil => simp at hlast
            | cons x xs => simpa using hlast

/-- Once `done` is set, no further pulls produce anything. -/
theorem pulls_of_done (fuel : Nat) (σ : ChunkedChanges) (h : σ.done = true) :
    ChunkedChanges.pulls fuel σ = [] := by
  cases fuel <;> simp [ChunkedChanges.pulls, ChunkedChanges.next, h]

/-- A list with a last element is a member-containing list. -/
theorem getLast?_some_mem {α : Type} : ∀ {l : List α} {a : α}, l.getLast? = some a → a ∈ l
  | [], _, h => by simp at h
  | [x], a, h => by simp_all
  | x :: y :: l, a, h => by
      have := getLast?_some_mem (l := y :: l) (a := a) (by simpa using h)
      simp [this]

/-- A list with a last element is nonempty. -/
theorem getLast?_some_ne_nil {α : Type} {l : List α} {a : α} (h : l.getLast? = some a) :
    l ≠ [] := by
  intro he
  subst he
  simp at h

/-- Dropping the last element of an append with nonempty right part drops it on
the right. -/
theorem dropLast_append_left {α : Type} (l₁ : List α) {l₂ : List α} (h : l₂ ≠ []) :
    (l₁ ++ l₂).dropLast = l₁ ++ l₂.dropLast := by
  induction l₁ with
  | nil => simp
  | cons x xs IH =>
      have hne : xs ++ l₂ ≠ [] := by
        intro he
        rcases List.append_eq_nil.mp he with ⟨_, h2⟩
        exact h h2
      calc (x :: xs ++ l₂).dropLast = x :: (xs ++ l₂).dropLast := by
            cases hx : xs ++ l₂ with
            | nil => exact absurd hx hne
            | cons y ys => simp [hx]
        _ = x :: xs ++ l₂.dropLast := by rw [IH]; simp

/-- Dropping the last element of a cons with nonempty tail keeps the head. -/
theorem dropLast_cons_ne_nil {α : Type} (a : α) {l : List α} (h : l ≠ []) :
    (a :: l).dropLast = a :: l.dropLast := by
  cases l with
  | nil => exact absurd rfl h
  | cons y ys => simp

/-- The last element of a cons with nonempty tail is the tail's last element. -/
theorem getLast?_cons_ne_nil {α : Type} (a : α) {l : List α} (h : l ≠ []) :
    (a :: l).getLast? = l.getLast? := by
  cases l with
  | nil => exact absurd rfl h
  | cons y ys => simp

/-- Record preservation across all pulls, generalised over the chunker state:
from a not-yet-done state with empty accumulator and a fault-free iterator none
of whose records hits `last_seq` before the final stream position, the pulls
emit only chunks and the concatenation of their record lists is exactly the
input. -/
theorem pulls_records (fuel : Nat) :
    ∀ (σ : ChunkedChanges) (input : List Change),
    σ.iter = input.map Except.ok → σ.done = false → σ.changes = [] →
    input.length < fuel →
    (∀ c ∈ input.dropLast, c.seq ≠ σ.last_seq) →
    allOk (ChunkedChanges.pulls fuel σ) = true ∧
    itemRecords (ChunkedChanges.pulls fuel σ) = input := by
  induction fuel with
  | zero => intro σ input _ _ _ hlen _; omega
  | succ fuel IH =>
    intro σ input hiter hdone hch hlen hterm
    obtain ⟨pre, post, r, σ2, hsplit, heq, hstart, hiter2, hL, hB, hdisj⟩ :=
      chunkLoop_char σ.max_buf_size σ.last_seq input σ.changes 0
        σ.last_pushed_seq σ.last_start_seq
    have hnext : σ.next = (some (Except.ok (σ.changes ++ pre, r)), σ2) := by
      rw [ChunkedChanges.next, hdone, hiter]
      simpa using heq
    have hpulls : ChunkedChanges.pulls (fuel + 1) σ
        = Except.ok (pre, r) :: ChunkedChanges.pulls fuel σ2 := by
      rw [ChunkedChanges.pulls, hnext, hch]
      simp
    rcases hdisj with ⟨hd, hr, hpost⟩ | ⟨hd, hch2, hpost, ⟨c2, hlast, hcs⟩, hls2⟩
    · -- terminal pull: everything remaining was consumed
      have hpost0 : post = [] := by
        rcases hpost with hpost | ⟨c2, hlast, hcs⟩
        · exact hpost
        · by_contra hne
          have hmem : c2 ∈ input.dropLast := by
            rw [hsplit, dropLast_append_left pre hne]
            exact List.mem_append_left _ (getLast?_some_mem hlast)
          exact hterm c2 hmem hcs
      rw [hpulls, pulls_of_done fuel σ2 hd]
      constructor
      · simp [allOk]
      · simp [itemRecords, hsplit, hpost0]
    · -- mid-stream chunk, recurse on the remaining input
      have hprene : pre ≠ [] := getLast?_some_ne_nil hlast
      have hlen2 : post.length < fuel := by
        have := List.length_append pre post
        have hp : 1 ≤ pre.length := by
          cases pre with
          | nil => exact absurd rfl hprene
          | cons _ _ => simp
        rw [hsplit, List.length_append] at hlen
        omega
      have hterm2 : ∀ c ∈ post.dropLast, c.seq ≠ σ2.last_seq := by
        intro c hc
        rw [hL]
        refine hterm c ?_
        rw [hsplit, dropLast_append_left pre hpost]
        exact List.mem_append_right _ hc
      obtain ⟨hok2, hrec2⟩ := IH σ2 post hiter2 hd hch2 hlen2 hterm2
      rw [hpulls]
      constructor
      · simpa [allOk] using hok2
      · simp [itemRecords, hrec2, hsplit]

/-- Range tiling across all pulls, generalised over the chunker state: from a
not-yet-done state with empty accumulator, a fault-free iterator whose records
have non-decreasing `seq` values bounded by `last_seq` and not preceding
`last_start_seq - 1`, and a chunk start within the span, the pulls emit only
chunks whose ranges tile `[last_start_seq, last_seq]`. -/
theorem pulls_tiles (fuel : Nat) :
    ∀ (σ : ChunkedChanges) (input : List Change),
    σ.iter = input.map Except.ok → σ.done = false → σ.changes = [] →
    input.length < fuel →
    (∀ c ∈ input, c.seq ≤ σ.last_seq) →
    (∀ c ∈ input, σ.last_start_seq ≤ c.seq + 1) →
    input.Pairwise (fun a b => a.seq ≤ b.seq) →
    σ.last_start_seq ≤ σ.last_seq + 1 →
    allOk (ChunkedChanges.pulls fuel σ) = true ∧
    tilesFrom σ.last_start_seq σ.last_seq
      (itemRanges (ChunkedChanges.pulls fuel σ)) = true := by
  induction fuel with
  | zero => intro σ input _ _ _ hlen _ _ _ _; omega
  | succ fuel IH =>
    intro σ input hiter hdone hch hlen hub hlb hmono hspan
    obtain ⟨pre, post, r, σ2, hsplit, heq, hstart, hiter2, hL, hB, hdisj⟩ :=
      chunkLoop_char σ.max_buf_size σ.last_seq input σ.changes 0
        σ.last_pushed_seq σ.last_start_seq
    have hnext : σ.next = (some (Except.ok (σ.changes ++ pre, r)), σ2) := by
      rw [ChunkedChanges.next, hdone, hiter]
      simpa using heq
    have hpulls : ChunkedChanges.pulls (fuel + 1) σ
        = Except.ok (pre, r) :: ChunkedChanges.pulls fuel σ2 := by
      rw [ChunkedChanges.pulls, hnext, hch]
      simp
    rcases hdisj with ⟨hd, hr, _⟩ | ⟨hd, hch2, hpost, ⟨c2, hlast, hcs⟩, hls2⟩
    · -- terminal pull: the single remaining range closes the span
      rw [hpulls, pulls_of_done fuel σ2 hd]
      refine ⟨by simp [allOk], ?_⟩
      simp [itemRanges, tilesFrom, hstart, hr, Nat.ble_eq]
      exact hspan
    · -- mid-stream chunk ending at the last consumed record's seq
      have hprene : pre ≠ [] := getLast?_some_ne_nil hlast
      have hc2mem : c2 ∈ pre := getLast?_some_mem hlast
      have hlen2 : post.length < fuel := by
        have hp : 1 ≤ pre.length := by
          cases pre with
          | nil => exact absurd rfl hprene
          | cons _ _ => simp
        rw [hsplit, List.length_append] at hlen
        omega
      have hcross : ∀ c ∈ post, c2.seq ≤ c.seq := by
        intro c hc
        rw [hsplit] at hmono
        exact (List.pairwise_append.mp hmono).2.2 c2 hc2mem c hc
      have hub2 : ∀ c ∈ post, c.seq ≤ σ2.last_seq := by
        intro c hc
        rw [hL]
        exact hub c (by rw [hsplit]; exact List.mem_append_right _ hc)
      have hlb2 : ∀ c ∈ post, σ2.last_start_seq ≤ c.seq + 1 := by
        intro c hc
        have h1 := hcross c hc
        rw [hls2]
        omega
      have hmono2 : post.Pairwise (fun a b => a.seq ≤ b.seq) := by
        rw [hsplit] at hmono
        exact (List.pairwise_append.mp hmono).2.1
      have hc2ub : c2.seq ≤ σ.last_seq :=
        hub c2 (by rw [hsplit]; exact List.mem_append_left _ hc2mem)
      have hspan2 : σ2.last_start_seq ≤ σ2.last_seq + 1 := by
        rw [hls2, hL]
        omega
      obtain ⟨hok2, htiles2⟩ := IH σ2 post hiter2 hd hch2 hlen2 hub2 hlb2 hmono2 hspan2
      rw [hls2, hL] at htiles2
      rw [hpulls]
      refine ⟨by simpa [allOk] using hok2, ?_⟩
      have hlsr : σ.last_start_seq ≤ r.endSeq + 1 := by
        have h2 := hlb c2 (by rw [hsplit]; exact List.mem_append_left _ hc2mem)
        omega
      cases hranges2 : itemRanges (ChunkedChanges.pulls fuel σ2) with
      | nil => rw [hranges2] at htiles2; simp [tilesFrom] at htiles2
      | cons r2 rest =>
        rw [hranges2] at htiles2
        simp [itemRanges, tilesFrom, hranges2, hstart, Nat.ble_eq]
        exact ⟨hlsr, htiles2⟩

/-- Shape of a fault-free run, generalised over the chunker state: every pull
yields a chunk; every chunk before the final one carries at least one record
and its range ends at its last record's `seq`; the final chunk's range ends at
`last_seq`. -/
theorem pulls_shape (fuel : Nat) :
    ∀ (σ : ChunkedChanges) (input : List Change),
    σ.iter = input.map Except.ok → σ.done = false → σ.changes = [] →
    input.length < fuel →
    ∃ chunks : List (List Change × CrsqlSeqRange),
      ChunkedChanges.pulls fuel σ = chunks.map Except.ok ∧
      chunks ≠ [] ∧
      (∀ p ∈ chunks.dropLast,
        p.1 ≠ [] ∧ ∃ c, p.1.getLast? = some c ∧ c.seq = p.2.endSeq) ∧
      (∃ lastc, chunks.getLast? = some lastc ∧ lastc.2.endSeq = σ.last_seq) := by
  induction fuel with
  | zero => intro σ input _ _ _ hlen; omega
  | succ fuel IH =>
    intro σ input hiter hdone hch hlen
    obtain ⟨pre, post, r, σ2, hsplit, heq, hstart, hiter2, hL, hB, hdisj⟩ :=
      chunkLoop_char σ.max_buf_size σ.last_seq input σ.changes 0
        σ.last_pushed_seq σ.last_start_seq
    have hnext : σ.next = (some (Except.ok (σ.changes ++ pre, r)), σ2) := by
      rw [ChunkedChanges.next, hdone, hiter]
      simpa using heq
    have hpulls : ChunkedChanges.pulls (fuel + 1) σ
        = Except.ok (pre, r) :: ChunkedChanges.pulls fuel σ2 := by
      rw [ChunkedChanges.pulls, hnext, hch]
      simp
    rcases hdisj with ⟨hd, hr, _⟩ | ⟨hd, hch2, hpost, ⟨c2, hlast, hcs⟩, hls2⟩
    · -- terminal pull: a single final chunk
      refine ⟨[(pre, r)], ?_, by simp, by simp, ⟨(pre, r), by simp, hr⟩⟩
      rw [hpulls, pulls_of_done fuel σ2 hd]
      simp
    · -- mid-stream chunk followed by the rest of the run
      have hprene : pre ≠ [] := getLast?_some_ne_nil hlast
      have hlen2 : post.length < fuel := by
        have hp : 1 ≤ pre.length := by
          cases pre with
          | nil => exact absurd rfl hprene
          | cons _ _ => simp
        rw [hsplit, List.length_append] at hlen
        omega
      obtain ⟨chunks2, hmap2, hne2, hmid2, lastc2, hlast2, hend2⟩ :=
        IH σ2 post hiter2 hd hch2 hlen2
      refine ⟨(pre, r) :: chunks2, ?_, by simp, ?_, ⟨lastc2, ?_, by rw [hend2, hL]⟩⟩
      · rw [hpulls, hmap2]; simp
      · intro p hp
        rw [dropLast_cons_ne_nil _ hne2] at hp
        rcases List.mem_cons.mp hp with hp | hp
        · subst hp
          exact ⟨hprene, c2, hlast, hcs⟩
        · exact hmid2 p hp
      · rw [getLast?_cons_ne_nil _ hne2]
        exact hlast2

/-! ### Claim theorems -/

/-- Claim C1: for every input span `[s, e]` and every fault-free record stream
drawn from that span (seq values non-decreasing and within `[s, e]`), all pulls
of `ChunkedChanges.next` emit chunks (no faults) and the concatenation of the
emitted `SequenceRange`s exactly tiles `[s, e]`: the first range starts at `s`,
each subsequent range starts exactly one past the previous range's end (no
gaps, no overlaps, ranges in non-decreasing order), every range stays ahead of
its predecessors, and the last range ends at `e` — even when some sequence
numbers in the span have no record.  `fuel` ranges over every bound large
enough to cover all pulls. -/
theorem chunker_range_coverage (input : List Change) (s e b fuel : Nat)
    (hfuel : input.length < fuel) (hse : s ≤ e)
    (hb : ∀ c ∈ input, s ≤ c.seq ∧ c.seq ≤ e)
    (hm : input.Pairwise (fun a b => a.seq ≤ b.seq)) :
    allOk (ChunkedChanges.pulls fuel
      (ChunkedChanges.new (input.map Except.ok) s e b)) = true ∧
    tilesFrom s e (itemRanges (ChunkedChanges.pulls fuel
      (ChunkedChanges.new (input.map Except.ok) s e b))) = true := by
  have h1 : ∀ c ∈ input, c.seq ≤ e := fun c hc => (hb c hc).2
  have h2 : ∀ c ∈ input, s ≤ c.seq + 1 := fun c hc => by
    have := (hb c hc).1
    omega
  have h3 : s ≤ e + 1 := by omega
  exact pulls_tiles fuel (ChunkedChanges.new (input.map Except.ok) s e b) input
    rfl rfl rfl hfuel h1 h2 hm h3

/-- Witness for C1 at a concrete two-record stream over `[0, 100]`. -/
theorem chunker_range_coverage_witness :
    allOk (ChunkedChanges.pulls 3
      (ChunkedChanges.new ([sampleChange 0, sampleChange 1].map Except.ok) 0 100 1)) = true ∧
    tilesFrom 0 100 (itemRanges (ChunkedChanges.pulls 3
      (ChunkedChanges.new ([sampleChange 0, sampleChange 1].map Except.ok) 0 100 1))) = true :=
  chunker_range_coverage [sampleChange 0, sampleChange 1] 0 100 1 3
    (by decide) (by decide) (by decide) (by decide)

/-- Claim C2 as stated fails on the code: with a fault-free input whose second
record lies beyond the terminal sequence (records with seqs 0 and 1, chunker
span ending at `last_seq = 0`, the source's own third test case), the pull loop
breaks as soon as it consumes the record with `seq = last_seq` and never reads
the rest, so the concatenation of the emitted record lists is `[r0]`, not the
whole input `[r0, r1]`. -/
theorem record_preservation_counterexample :
    allOk (ChunkedChanges.pulls 3 (ChunkedChanges.new
      ([sampleChange 0, sampleChange 1].map Except.ok) 0 0 56)) = true ∧
    itemRecords (ChunkedChanges.pulls 3 (ChunkedChanges.new
      ([sampleChange 0, sampleChange 1].map Except.ok) 0 0 56))
      ≠ [sampleChange 0, sampleChange 1] := by
  decide

/-- Claim C2 (amended): when the source iterator produces no faults and no
record other than the stream's final one carries `seq = last_seq`, the
concatenation, in emission order, of all record lists emitted across all pulls
equals the original input record sequence exactly — no record dropped,
duplicated, added, or reordered (and every emitted item is a chunk). -/
theorem record_preservation (input : List Change) (s e b fuel : Nat)
    (hfuel : input.length < fuel)
    (hterm : ∀ c ∈ input.dropLast, c.seq ≠ e) :
    allOk (ChunkedChanges.pulls fuel
      (ChunkedChanges.new (input.map Except.ok) s e b)) = true ∧
    itemRecords (ChunkedChanges.pulls fuel
      (ChunkedChanges.new (input.map Except.ok) s e b)) = input :=
  pulls_records fuel (ChunkedChanges.new (input.map Except.ok) s e b) input
    rfl rfl rfl hfuel hterm

/-- Witness for the amended C2 at a concrete two-record stream. -/
theorem record_preservation_witness :
    allOk (ChunkedChanges.pulls 3
      (ChunkedChanges.new ([sampleChange 0, sampleChange 1].map Except.ok) 0 100 1)) = true ∧
    itemRecords (ChunkedChanges.pulls 3
      (ChunkedChanges.new ([sampleChange 0, sampleChange 1].map Except.ok) 0 100 1))
      = [sampleChange 0, sampleChange 1] :=
  record_preservation [sampleChange 0, sampleChange 1] 0 100 1 3 (by decide) (by decide)

/-- Claim C5: chunking `[r0, r1, r2]` (seqs 0, 1, 2) over `[0, 100]` with a
byte budget exactly `size r0 + size r1` yields `([r0, r1], [0, 1])` on the
first pull, `([r2], [2, 100])` on the second, and end-of-sequence on the third;
and, in general, the pull loop emits the accumulated chunk as soon as the
running byte estimate reaches or exceeds `max_buf_size`, provided the source
still has further items and the record just consumed did not carry the terminal
sequence. -/
theorem exact_budget_split :
    (ChunkedChanges.pulls 3 (ChunkedChanges.new
        ([sampleChange 0, sampleChange 1, sampleChange 2].map Except.ok) 0 100
        ((sampleChange 0).estimated_byte_size + (sampleChange 1).estimated_byte_size))
      = [Except.ok ([sampleChange 0, sampleChange 1], CrsqlSeqRange.new 0 1),
         Except.ok ([sampleChange 2], CrsqlSeqRange.new 2 100)]) ∧
    ((ChunkedChanges.new
        ([sampleChange 0, sampleChange 1, sampleChange 2].map Except.ok) 0 100
        ((sampleChange 0).estimated_byte_size + (sampleChange 1).estimated_byte_size)).nextN 2
      = none) ∧
    (∀ (B L : Nat) (ch : List Change) (buf lp ls : Nat) (c : Change)
        (rest : List (Except RusqliteError Change)),
      c.seq ≠ L → B ≤ buf + c.estimated_byte_size → rest ≠ [] →
      (chunkLoop B L (Except.ok c :: rest) ch buf lp ls).1
        = some (Except.ok (ch ++ [c], CrsqlSeqRange.new ls c.seq))) := by
  refine ⟨by decide, by decide, ?_⟩
  intro B L ch buf lp ls c rest hseq hbud hrest
  cases rest with
  | nil => exact absurd rfl hrest
  | cons d rest2 => simp [chunkLoop, hseq, hbud]

/-- Witness for C5's general emit-on-budget conjunct at concrete arguments. -/
theorem exact_budget_split_witness :
    (chunkLoop 56 100 [Except.ok (sampleChange 0), Except.ok (sampleChange 1)] [] 0 0 0).1
      = some (Except.ok ([] ++ [sampleChange 0], CrsqlSeqRange.new 0 (sampleChange 0).seq)) :=
  exact_budget_split.2.2 56 100 [] 0 0 0 (sampleChange 0) [Except.ok (sampleChange 1)]
    (by decide) (by decide) (by decide)

/-- Claim C6: when the underlying iterator yields a fault, the pull loop
returns that error immediately, regardless of the records accumulated so far
during this pull (`ch` is arbitrary): the emitted item is the error itself, and
the accumulated-but-unflushed records are retained undelivered in the state
rather than handed to the caller alongside the error. -/
theorem fault_propagated_immediately (B L : Nat) (e : RusqliteError)
    (rest : List (Except RusqliteError Change)) (ch : List Change) (buf lp ls : Nat) :
    chunkLoop B L (Except.error e :: rest) ch buf lp ls
      = (some (Except.error e), ⟨rest, ch, lp, ls, L, B, buf, false⟩) := by
  simp [chunkLoop]

/-- Claim C7: chunking an empty record stream over `[0, 100]` yields exactly
one chunk `([], [0, 100])` on the first pull and end-of-sequence on the second,
for every byte budget. -/
theorem empty_input_single_chunk (b : Nat) :
    (ChunkedChanges.new [] 0 100 b).nextN 0
      = some (Except.ok ([], CrsqlSeqRange.new 0 100)) ∧
    (ChunkedChanges.new [] 0 100 b).nextN 1 = none :=
  ⟨rfl, rfl⟩

/-- Claim C8: once the terminal condition has been reached (the `done` flag set
by final-chunk emission), every subsequent call to `next` returns
end-of-sequence again — for any number of extra calls, with no chunk
re-emitted. -/
theorem past_end_idempotent (σ : ChunkedChanges) (h : σ.done = true) :
    ∀ n, σ.nextN n = none := by
  intro n
  induction n generalizing σ with
  | zero => simp [ChunkedChanges.nextN, ChunkedChanges.next, h]
  | succ n IH =>
    have hn : σ.next = (none, σ) := by simp [ChunkedChanges.next, h]
    rw [ChunkedChanges.nextN, hn]
    exact IH σ h

/-- Witness for C8 at a concrete done state and five extra calls. -/
theorem past_end_idempotent_witness :
    ChunkedChanges.nextN ⟨[], [], 0, 0, 0, 0, 0, true⟩ 5 = none :=
  past_end_idempotent ⟨[], [], 0, 0, 0, 0, 0, true⟩ rfl 5

/-- Claim C9: for every `Change` value, the byte estimate equals the sum of the
lengths of the variable-length fields (table name, primary-key bytes, column
name, value estimate) plus exactly 56 fixed bytes, which decompose as
8+8+8+16+8 = 48 for the numeric and identity fields plus an additional fixed
8-byte slot for the wire-only `site_version` tag absent from the struct. -/
theorem estimated_byte_size_breakdown (c : Change) :
    c.estimated_byte_size
      = c.table.utf8ByteSize + c.pk.length + c.cid.utf8ByteSize
          + c.val.estimated_byte_size + ((8 + 8 + 8 + 16 + 8) + 8) ∧
    (8 + 8 + 8 + 16 + 8) + 8 = 56 := by
  refine ⟨?_, by norm_num⟩
  unfold Change.estimated_byte_size
  omega

/-- Claim C10: in every fault-free run of the chunker, every pull yields a
chunk, every chunk before the final one carries at least one record and its
range ends exactly at the `seq` of its last record, and only the final chunk
may carry an empty record list — its range always ends at the caller-supplied
`last_seq`. -/
theorem chunk_shape_invariant (input : List Change) (s e b fuel : Nat)
    (hfuel : input.length < fuel) :
    ∃ chunks : List (List Change × CrsqlSeqRange),
      ChunkedChanges.pulls fuel (ChunkedChanges.new (input.map Except.ok) s e b)
        = chunks.map Except.ok ∧
      chunks ≠ [] ∧
      (∀ p ∈ chunks.dropLast,
        p.1 ≠ [] ∧ ∃ c, p.1.getLast? = some c ∧ c.seq = p.2.endSeq) ∧
      (∃ lastc, chunks.getLast? = some lastc ∧ lastc.2.endSeq = e) :=
  pulls_shape fuel (ChunkedChanges.new (input.map Except.ok) s e b) input
    rfl rfl rfl hfuel

/-- Witness for C10 at a concrete one-record stream. -/
theorem chunk_shape_invariant_witness :
    ∃ chunks : List (List Change × CrsqlSeqRange),
      ChunkedChanges.pulls 2 (ChunkedChanges.new ([sampleChange 0].map Except.ok) 0 5 1)
        = chunks.map Except.ok ∧
      chunks ≠ [] ∧
      (∀ p ∈ chunks.dropLast,
        p.1 ≠ [] ∧ ∃ c, p.1.getLast? = some c ∧ c.seq = p.2.endSeq) ∧
      (∃ lastc, chunks.getLast? = some lastc ∧ lastc.2.endSeq = 5) :=
  chunk_shape_invariant [sampleChange 0] 0 5 1 2 (by decide)

/-- Claim C3: when the registrar finds a maximum sequence number for the peeked
version (with or without a timestamp) and the ledger write succeeds, it takes a
snapshot from the ledger writer, registers the single-version range
`[db_version, db_version]` into it exactly once (the operation trace is exactly
one snapshot followed by one `insert_db` of that one range), and returns `Some`
info carrying that version, the found `last_seq`, the timestamp — the found one
or, when absent, a freshly minted timestamp from the node's clock instead of a
failure — and the updated snapshot. -/
theorem registrar_registers_found_version (env : RegistrarEnv) (v last_seq : Nat)
    (tso : Option Timestamp)
    (hp : env.peek_next_db_version = Except.ok v)
    (hv : env.version_info v = Except.ok (some last_seq, tso))
    (hi : env.insert_db_result = Except.ok ()) :
    insert_local_changes env
      = (Except.ok (some
          { db_version := v
            last_seq := last_seq
            ts := tso.getD env.clock_timestamp
            snap := (env.book_writer.snapshot).insert_db [(v, v)] }),
         [LedgerOp.snapshot, LedgerOp.insert_db [(v, v)]]) := by
  simp [insert_local_changes, hp, hv, hi, BookedVersions.snapshot]

/-- Environment used by the C3 witness: a store that reports version 7 with
last seq 3 and no timestamp. -/
def sampleEnvFound : RegistrarEnv :=
  { actor_id := ⟨1⟩
    clock_timestamp := ⟨42⟩
    peek_next_db_version := Except.ok 7
    version_info := fun _ => Except.ok (some 3, none)
    insert_db_result := Except.ok ()
    book_writer := ⟨⟨[]⟩⟩ }

/-- Witness for C3: the missing-timestamp case at a concrete environment. -/
theorem registrar_registers_found_version_witness :
    insert_local_changes sampleEnvFound
      = (Except.ok (some
          { db_version := 7
            last_seq := 3
            ts := (none : Option Timestamp).getD sampleEnvFound.clock_timestamp
            snap := (sampleEnvFound.book_writer.snapshot).insert_db [(7, 7)] }),
         [LedgerOp.snapshot, LedgerOp.insert_db [(7, 7)]]) :=
  registrar_registers_found_version sampleEnvFound 7 3 none rfl rfl rfl

/-- Claim C4: when the registrar finds neither a sequence nor a timestamp for
the peeked version, or a timestamp but no sequence, it returns `Ok(None)` and
performs no ledger operation: the trace is empty — no snapshot is taken and
`insert_db` is never called. -/
theorem registrar_no_local_change (env : RegistrarEnv) (v : Nat) (tso : Option Timestamp)
    (hp : env.peek_next_db_version = Except.ok v)
    (hv : env.version_info v = Except.ok (none, tso)) :
    insert_local_changes env = (Except.ok none, []) := by
  cases tso <;> simp [insert_local_changes, hp, hv]

/-- Environment used by the C4 witness: a store that reports a timestamp but no
sequence for the peeked version. -/
def sampleEnvEmpty : RegistrarEnv :=
  { actor_id := ⟨1⟩
    clock_timestamp := ⟨42⟩
    peek_next_db_version := Except.ok 7
    version_info := fun _ => Except.ok (none, some ⟨9⟩)
    insert_db_result := Except.ok ()
    book_writer := ⟨⟨[]⟩⟩ }

/-- Witness for C4: the timestamp-without-sequence case at a concrete
environment. -/
theorem registrar_no_local_change_witness :
    insert_local_changes sampleEnvEmpty = (Except.ok none, []) :=
  registrar_no_local_change sampleEnvEmpty 7 (some ⟨9⟩) rfl rfl

end Corrosion
